import Mathlib

/-!
# In-place element-wise transforms over a vector (`src/main.cpp`)

A shallow embedding of `ForEach`, `ForEachAuto`, `ForEach2` and `printVec`
together with the lambdas the demo driver passes to them.

* `std::vector<T>` is a `List T` addressed by position (`List.get?`, `List.set`).
* A callable is a function that threads an observable state `σ` (whatever the
  call can touch besides its argument: captured references, a call log).
  A side-effect free function is `pureFn f`; `traced f` is `f` instrumented with
  the list of the arguments it has been invoked on.
* The range-based `for (auto& el : container)` is the iterator loop the language
  defines it to be: `begin`/`end` taken once, `!=` as the loop test, `++` as
  the step, the body run on a reference to the element under the iterator.
  Dereferencing a position outside the container has no defined result and
  is `none`.
* `int` is a 32-bit two's complement integer: values are `Int`, arithmetic
  results are reduced by `wrapInt32`.
* `char` is an 8-bit two's complement integer and a `std::string` the list of
  its `char`s; an `int` stored into a `char` is reduced by `narrowChar`.
* `std::cout` is the text written to it so far, a `String` that grows.
-/

namespace CppLambda

universe u v

/-- A callable taking an `A` and returning a `B`, with the state `σ` it may
observe and change while it runs. -/
abbrev Callable (σ : Type u) (A B : Type v) := A → σ → B × σ

/-- A callable without side effects: the state passes through untouched. -/
def pureFn {σ : Type u} {A B : Type v} (f : A → B) : Callable σ A B :=
  fun x w => (f x, w)

/-- The callable `g` instrumented with a call log: every invocation runs `g` and
appends its argument to the log, so the log lists the arguments of all
invocations in invocation order. -/
def traced {σ : Type u} {A B : Type v} (g : Callable σ A B) :
    Callable (σ × List A) A B :=
  fun x s =>
    let r := g x s.1
    (r.1, (r.2, s.2 ++ [x]))

/-- The range-based `for` loop over positions `pos .. endPos` of `container`:
while the iterator differs from `end`, bind `el` to the element under it, store
`body el` back through the reference, and advance. -/
def rangeFor {σ : Type u} {T : Type v} (body : Callable σ T T) (endPos : Nat) :
    (pos : Nat) → List T → σ → pos ≤ endPos → Option (List T × σ)
  | pos, container, w, hpos =>
    if hne : pos ≠ endPos then
      match container.get? pos with
      | none => none
      | some el =>
        let r := body el w
        rangeFor body endPos (pos + 1) (container.set pos r.1) r.2
          (Nat.succ_le_of_lt (Nat.lt_of_le_of_ne hpos hne))
    else
      some (container, w)
termination_by pos => endPos - pos
decreasing_by omega

/-- The function template `ForEach` (lines 5-11): `el = lambdaExpression(el)` for every element. -/
def ForEach {σ : Type u} {T : Type v} (container : List T)
    (lambdaExpression : Callable σ T T) (w : σ) : Option (List T × σ) :=
  rangeFor (fun el s => lambdaExpression el s) container.length 0 container w
    (Nat.zero_le _)

/-- The abbreviated function template `ForEachAuto` (lines 13-18), both
parameter types deduced: `el = lambdaExpression(el)` for every element. -/
def ForEachAuto {σ : Type u} {T : Type v} (container : List T)
    (lambdaExpression : Callable σ T T) (w : σ) : Option (List T × σ) :=
  rangeFor (fun el s => lambdaExpression el s) container.length 0 container w
    (Nat.zero_le _)

/-- The function template `ForEach2` (lines 23-29): the callable is a
`std::function<int(const int&)>` whatever the element type `T`, so
`el = f(el)` converts the element to `int` on the way in (`toInt`) and the
`int` result back to `T` on the way out (`ofInt`). For `T = int` both
conversions are the identity. -/
def ForEach2 {σ : Type u} {T : Type} (toInt : T → Int) (ofInt : Int → T)
    (container : List T) (f : Callable σ Int Int) (w : σ) : Option (List T × σ) :=
  rangeFor (fun el s => let r := f (toInt el) s; (ofInt r.1, r.2))
    container.length 0 container w (Nat.zero_le _)

/-! ## `int` arithmetic and the lambdas of `main` -/

/-- Reduction of an integer to the 32-bit two's complement range. -/
def wrapInt32 (z : Int) : Int := (z + 2147483648) % 4294967296 - 2147483648

/-- The value `z` is representable as a 32-bit `int`. -/
def fitsInt32 (z : Int) : Prop := -2147483648 ≤ z ∧ z ≤ 2147483647

instance (z : Int) : Decidable (fitsInt32 z) := by
  unfold fitsInt32; infer_instance

/-- The lambda of line 44 at `int`: `[](auto x){ return x * x; }`. -/
def squareLambda (x : Int) : Int := wrapInt32 (x * x)

/-- The lambda of line 49: `[&a] (int x) -> int { return a * x; }`, with the
captured variable `a` as a parameter. -/
def scaleLambda (a : Int) (x : Int) : Int := wrapInt32 (a * x)

/-- The demo's `intVec` after line 44: squared by `ForEachAuto`. -/
def mainIntVecSquared : Option (List Int × Unit) :=
  ForEachAuto [0, 1, 2, 3, 4, 5] (pureFn squareLambda) ()

/-- The demo's `intVec` after line 49: squared by `ForEachAuto`, then
multiplied by the captured `a = 10` by `ForEach`. -/
def mainIntVecScaled : Option (List Int × Unit) :=
  match mainIntVecSquared with
  | none => none
  | some (intVec, w) =>
    let a : Int := 10
    ForEach intVec (pureFn (scaleLambda a)) w

/-! ## What one pass computes -/

/-- One left-to-right pass of a callable over a list, threading the state:
the reference result the loops are compared with. -/
def passOver {σ : Type u} {T : Type v} (body : Callable σ T T) : List T → σ → List T × σ
  | [], w => ([], w)
  | x :: xs, w =>
    let r := body x w
    let rest := passOver body xs r.2
    (r.1 :: rest.1, rest.2)

/-! ## The uppercasing lambda of `main` -/

/-- Conversion of an `int` to `char` (8 bits, two's complement), as the
assignment `*it = toupper(*it)` performs it. -/
def narrowChar (z : Int) : Int := (z + 128) % 256 - 128

/-- The value `z` is representable as a `char`. -/
def fitsChar (z : Int) : Prop := -128 ≤ z ∧ z ≤ 127

instance (z : Int) : Decidable (fitsChar z) := by
  unfold fitsChar; infer_instance

/-- The `for` loop of the lambda of line 58 over its own copy `s` of the
string, with the iterator `it` at position `pos`: while `it != s.end()`,
`*it = toupper(*it)` and `++it`. The library function `toupper` is the
parameter `toupperFn`; a `char` is its numeric value. -/
def upperLoop (toupperFn : Int → Int) :
    (s : List Int) → (pos : Nat) → pos ≤ s.length → List Int
  | s, pos, hpos =>
    if hne : pos ≠ s.length then
      upperLoop toupperFn
        (s.set pos (narrowChar (toupperFn (s.get ⟨pos, Nat.lt_of_le_of_ne hpos hne⟩))))
        (pos + 1)
        (by rw [List.length_set]; exact Nat.succ_le_of_lt (Nat.lt_of_le_of_ne hpos hne))
    else
      s
termination_by s pos _ => s.length - pos
decreasing_by
  rw [List.length_set]
  omega

/-- The lambda of line 58: `[](auto s) { for (...) {*it = toupper(*it);} return s; }`,
the loop run from `s.begin()` on the by-value copy, which is returned. -/
def upperLambda (toupperFn : Int → Int) (s : List Int) : List Int :=
  upperLoop toupperFn s 0 (Nat.zero_le _)

/-- Modelled from the spec: `toupper` of the C library is no part of the
repository; this is the "uppercase" function of the spec's scenario, as the
default "C" locale defines it: the lower-case letters `a`..`z` (97..122) go to
`A`..`Z` (65..90), every other value is returned as it is. -/
def toupper (c : Int) : Int := if 97 ≤ c ∧ c ≤ 122 then c - 32 else c

/-- The `char`s of a string literal made of ASCII characters. -/
def cstr (s : String) : List Int := s.toList.map (fun ch => Int.ofNat ch.toNat)

/-- The demo's `stringVec` after line 58. -/
def mainStringVecUpper : Option (List (List Int) × Unit) :=
  ForEach [cstr "Pallas", cstr "Ceres", cstr "Vesta"] (pureFn (upperLambda toupper)) ()

/-! ## `printVec` -/

/-- The range-based `for (const auto& el : v)`: the same iterator loop as
`rangeFor`, with a body that reads the element and only changes the state. -/
def rangeForConst {σ : Type u} {T : Type v} (body : T → σ → σ) (endPos : Nat) :
    (pos : Nat) → List T → σ → pos ≤ endPos → Option σ
  | pos, container, w, hpos =>
    if hne : pos ≠ endPos then
      match container.get? pos with
      | none => none
      | some el =>
        rangeForConst body endPos (pos + 1) container (body el w)
          (Nat.succ_le_of_lt (Nat.lt_of_le_of_ne hpos hne))
    else
      some w
termination_by pos => endPos - pos
decreasing_by omega

/-- The function template `printVec` (lines 31-37). The state is the text
written to `std::cout` so far; `render` is what `operator<<` writes for an
element. Every element is written followed by `" "`, then `'\n'` is written. -/
def printVec {T : Type v} (render : T → String) (v : List T) (out : String) :
    Option String :=
  match rangeForConst (fun el o => o ++ render el ++ " ") v.length 0 v out
      (Nat.zero_le _) with
  | none => none
  | some o => some (o ++ "\n")

/-- What `operator<<` writes for an `int`: its decimal digits, after a `-`
when it is negative. -/
def renderInt (x : Int) : String := toString x

/-- The text the specification describes for `printVec`: the renderings of
the elements joined with a single space between consecutive elements,
followed by one newline. -/
def joinedLine {T : Type v} (render : T → String) (v : List T) : String :=
  " ".intercalate (v.map render) ++ "\n"

/-! ## Element types other than `int` under `ForEach2` -/

/-- Conversion to `int` of a fractional value (a rational standing in for a
`double` that holds it exactly, such as 1.5): the fractional part is
discarded. -/
def truncToInt (q : ℚ) : Int := Int.tdiv q.num (Int.ofNat q.den)

/-- Conversion of an `int` to the fractional type: the same number. -/
def fracOfInt (z : Int) : ℚ := Rat.ofInt z

/-! ## The loop computes one pass -/

/-- Loop invariant of `rangeFor`: with the iterator standing after the already
processed elements `done`, the loop finishes, leaves `done` alone and runs
the body over the remaining elements in order. -/
theorem rangeFor_append {σ : Type u} {T : Type v} (body : Callable σ T T) :
    ∀ (rest done : List T) (w : σ) (endPos pos : Nat) (hpos : pos ≤ endPos),
      pos = done.length → endPos = done.length + rest.length →
      rangeFor body endPos pos (done ++ rest) w hpos
        = some (done ++ (passOver body rest w).1, (passOver body rest w).2) := by
  intro rest
  induction rest with
  | nil =>
    intro done w endPos pos hpos h1 h2
    have hEq : pos = endPos := by simp at h2; omega
    rw [rangeFor]
    simp [hEq, passOver]
  | cons x xs ih =>
    intro done w endPos pos hpos h1 h2
    have hne : pos ≠ endPos := by simp at h2; omega
    have hget : (done ++ x :: xs).get? pos = some x := by
      subst h1
      rw [List.get?_eq_getElem?, List.getElem?_append_right (Nat.le_refl _)]
      simp
    have hset : (done ++ x :: xs).set pos (body x w).1 = (done ++ [(body x w).1]) ++ xs := by
      subst h1
      simp
    rw [rangeFor]
    simp only [hne, ne_eq, not_false_eq_true, dite_true, hget, hset]
    rw [ih (done ++ [(body x w).1]) (body x w).2 endPos (pos + 1) _ (by simp [h1])
      (by simp [h2]; omega)]
    simp [passOver]

/-- `ForEach` always finishes, and computes one pass of the callable. -/
theorem ForEach_eq_passOver {σ : Type u} {T : Type v} (container : List T)
    (g : Callable σ T T) (w : σ) :
    ForEach container g w = some (passOver g container w) := by
  unfold ForEach
  have h := rangeFor_append (fun el s => g el s) container [] w container.length 0
    (Nat.zero_le _) rfl (by simp)
  simpa using h

/-- `ForEachAuto` always finishes, and computes one pass of the callable. -/
theorem ForEachAuto_eq_passOver {σ : Type u} {T : Type v} (container : List T)
    (g : Callable σ T T) (w : σ) :
    ForEachAuto container g w = some (passOver g container w) := by
  unfold ForEachAuto
  have h := rangeFor_append (fun el s => g el s) container [] w container.length 0
    (Nat.zero_le _) rfl (by simp)
  simpa using h

/-- `ForEach2` always finishes, and computes one pass of the callable wrapped
in the two conversions. -/
theorem ForEach2_eq_passOver {σ : Type u} {T : Type} (toInt : T → Int) (ofInt : Int → T)
    (container : List T) (f : Callable σ Int Int) (w : σ) :
    ForEach2 toInt ofInt container f w
      = some (passOver (fun el s => (ofInt (f (toInt el) s).1, (f (toInt el) s).2))
          container w) := by
  unfold ForEach2
  have h := rangeFor_append (fun el s => (ofInt (f (toInt el) s).1, (f (toInt el) s).2))
    container [] w container.length 0 (Nat.zero_le _) rfl (by simp)
  simpa using h

/-- A pass keeps the number of elements. -/
theorem passOver_length {σ : Type u} {T : Type v} (body : Callable σ T T) :
    ∀ (l : List T) (w : σ), (passOver body l w).1.length = l.length := by
  intro l
  induction l with
  | nil => intro w; rfl
  | cons x xs ih => intro w; simp [passOver, ih]

/-- A pass of a side-effect free function is `List.map`, the state untouched. -/
theorem passOver_pureFn {σ : Type u} {T : Type v} (f : T → T) :
    ∀ (l : List T) (w : σ), passOver (pureFn f) l w = (l.map f, w) := by
  intro l
  induction l with
  | nil => intro w; rfl
  | cons x xs ih => intro w; simp [passOver, pureFn, ih]

/-- A pass of a traced callable computes what a pass of the callable itself
computes, and the log grows by the elements of the list, in order. -/
theorem passOver_traced {σ : Type u} {T : Type v} (g : Callable σ T T) :
    ∀ (l : List T) (w : σ) (log : List T),
      passOver (traced g) l (w, log)
        = ((passOver g l w).1, ((passOver g l w).2, log ++ l)) := by
  intro l
  induction l with
  | nil => intro w log; simp [passOver]
  | cons x xs ih => intro w log; simp [passOver, traced, ih]

/-- A product that fits in an `int` is not changed by the reduction. -/
theorem wrapInt32_of_fits (z : Int) (h : fitsInt32 z) : wrapInt32 z = z := by
  unfold fitsInt32 at h
  unfold wrapInt32
  omega

/-- Mapping two functions that agree on the elements of a list. -/
theorem map_eq_of_agree {A B : Type v} (f g : A → B) :
    ∀ (l : List A), (∀ x ∈ l, f x = g x) → l.map f = l.map g := by
  intro l
  induction l with
  | nil => intro _; rfl
  | cons x xs ih =>
    intro h
    simp only [List.map_cons]
    rw [h x (List.mem_cons_self x xs), ih (fun y hy => h y (List.mem_cons_of_mem x hy))]

/-! ## Positional contract of `ForEach` -/

/-- C1: for every element type, sequence `S`, function `f` and position
`i < length S`, `ForEach S f` finishes and the element it leaves at position
`i` is `f` applied to the element that was at position `i` before the call. -/
theorem ForEach_get {σ : Type u} {T : Type v} (S : List T) (f : T → T) (w : σ)
    (i : Nat) (h : i < S.length) :
    ∃ S1 : List T, ForEach S (pureFn f) w = some (S1, w)
      ∧ S1.get? i = some (f (S.get ⟨i, h⟩)) := by
  refine ⟨S.map f, ?_, ?_⟩
  · rw [ForEach_eq_passOver, passOver_pureFn]
  · simp [List.getElem?_eq_getElem h]

/-- C1 at `S = [1, 2, 3]`, `f x = x + 1`, `i = 1`: the element left at
position 1 is `3`. -/
theorem ForEach_get_witness :
    ∃ S1 : List Int, ForEach [1, 2, 3] (pureFn (fun x : Int => x + 1)) () = some (S1, ())
      ∧ S1.get? 1 = some 3 :=
  ForEach_get [1, 2, 3] (fun x : Int => x + 1) () 1 (by decide)

/-- C2: for every sequence and every transformation callable (side effects
included), each of `ForEach`, `ForEachAuto` and `ForEach2` finishes and leaves
a sequence of exactly the length it was given. -/
theorem ForEach_variants_length {σ : Type u} {T : Type v} {T2 : Type}
    (S : List T) (g : Callable σ T T) (w : σ)
    (toInt : T2 → Int) (ofInt : Int → T2) (S2 : List T2) (f2 : Callable σ Int Int) :
    (∃ r, ForEach S g w = some r ∧ r.1.length = S.length)
      ∧ (∃ r, ForEachAuto S g w = some r ∧ r.1.length = S.length)
      ∧ (∃ r, ForEach2 toInt ofInt S2 f2 w = some r ∧ r.1.length = S2.length) := by
  refine ⟨⟨_, ForEach_eq_passOver S g w, passOver_length _ _ _⟩,
    ⟨_, ForEachAuto_eq_passOver S g w, passOver_length _ _ _⟩,
    ⟨_, ForEach2_eq_passOver toInt ofInt S2 f2 w, passOver_length _ _ _⟩⟩

/-- C3: running `ForEach S f` and then `ForEach` with `g` on the result leaves
the same sequence as one `ForEach` on the original `S` with the composed
function `x ↦ g (f x)`. -/
theorem ForEach_compose {σ : Type u} {T : Type v} (S : List T) (f g : T → T) (w : σ) :
    ∃ S1 S2 : List T, ForEach S (pureFn f) w = some (S1, w)
      ∧ ForEach S1 (pureFn g) w = some (S2, w)
      ∧ ForEach S (pureFn (fun x => g (f x))) w = some (S2, w) := by
  refine ⟨S.map f, (S.map f).map g, ?_, ?_, ?_⟩
  · rw [ForEach_eq_passOver, passOver_pureFn]
  · rw [ForEach_eq_passOver, passOver_pureFn]
  · rw [ForEach_eq_passOver, passOver_pureFn, List.map_map]
    rfl

/-- C4: `ForEach` with the identity function leaves the sequence equal to what
it was before the call. -/
theorem ForEach_identity {σ : Type u} {T : Type v} (S : List T) (w : σ) :
    ForEach S (pureFn (fun x : T => x)) w = some (S, w) := by
  rw [ForEach_eq_passOver, passOver_pureFn]
  simp

/-- C5: on the empty sequence `ForEach` finishes without error (the result is
`some`), leaves the sequence empty, and does not invoke the callable: the call
log and the callable's state are what they were. -/
theorem ForEach_empty {σ : Type u} {T : Type v} (g : Callable σ T T) (w : σ) :
    ForEach ([] : List T) (traced g) (w, []) = some ([], (w, [])) := by
  rw [ForEach_eq_passOver]
  rfl

/-- C6: `ForEach S f` invokes the callable exactly `length S` times, and the
`k`-th invocation receives the original element at position `k`: the log of
the arguments of the invocations, in invocation order, is `S` itself. -/
theorem ForEach_invocations {σ : Type u} {T : Type v} (S : List T)
    (g : Callable σ T T) (w : σ) :
    ∃ (S1 : List T) (w1 : σ) (log : List T),
      ForEach S (traced g) (w, []) = some (S1, (w1, log))
        ∧ log.length = S.length
        ∧ (∀ k : Nat, log.get? k = S.get? k) := by
  refine ⟨(passOver g S w).1, (passOver g S w).2, S, ?_, rfl, fun _ => rfl⟩
  rw [ForEach_eq_passOver, passOver_traced]
  simp

/-! ## The three variants agree -/

/-- C7: for every element type, sequence and callable, `ForEach` and
`ForEachAuto` both finish and leave exactly the same sequence (and the same
callable state); a function `f : T → T` is the callable `pureFn f`. -/
theorem ForEach_eq_ForEachAuto {σ : Type u} {T : Type v} (S : List T)
    (g : Callable σ T T) (w : σ) :
    ∃ r, ForEach S g w = some r ∧ ForEachAuto S g w = some r :=
  ⟨_, ForEach_eq_passOver S g w, ForEachAuto_eq_passOver S g w⟩

/-- C8: on a sequence of `int` (both conversions are the identity) the
fixed-signature `ForEach2` finishes and leaves exactly the same sequence as
`ForEach`; a function `f : int → int` is the callable `pureFn f`. -/
theorem ForEach2_eq_ForEach_int {σ : Type u} (S : List Int)
    (g : Callable σ Int Int) (w : σ) :
    ∃ r, ForEach2 id id S g w = some r ∧ ForEach S g w = some r := by
  refine ⟨passOver g S w, ?_, ForEach_eq_passOver S g w⟩
  rw [ForEach2_eq_passOver]
  rfl

/-! ## The demo's two integer transformations -/

/-- C9: on every `int` sequence whose elements' squares fit in a 32-bit `int`,
`ForEachAuto` with the squaring lambda replaces each element by its square;
the demo's `[0,1,2,3,4,5]` becomes `[0,1,4,9,16,25]`. -/
theorem ForEachAuto_square :
    (∀ (S : List Int), (∀ x ∈ S, fitsInt32 (x * x)) →
        ForEachAuto S (pureFn squareLambda) () = some (S.map (fun x => x * x), ()))
      ∧ ForEachAuto [0, 1, 2, 3, 4, 5] (pureFn squareLambda) ()
          = some ([0, 1, 4, 9, 16, 25], ()) := by
  have hgen : ∀ (S : List Int), (∀ x ∈ S, fitsInt32 (x * x)) →
      ForEachAuto S (pureFn squareLambda) () = some (S.map (fun x => x * x), ()) := by
    intro S hS
    rw [ForEachAuto_eq_passOver, passOver_pureFn]
    rw [map_eq_of_agree squareLambda (fun x => x * x) S
      (fun x hx => wrapInt32_of_fits (x * x) (hS x hx))]
  refine ⟨hgen, ?_⟩
  rw [hgen [0, 1, 2, 3, 4, 5] (by decide)]
  rfl

/-- C9 at `S = [-46340, 7]`: both squares fit, and the sequence becomes
`[2147395600, 49]`. -/
theorem ForEachAuto_square_witness :
    (∀ x ∈ ([-46340, 7] : List Int), fitsInt32 (x * x))
      ∧ ForEachAuto [-46340, 7] (pureFn squareLambda) ()
          = some ([2147395600, 49], ()) :=
  ⟨by decide, ForEachAuto_square.1 [-46340, 7] (by decide)⟩

/-- C10: on every `int` sequence whose elements times 10 fit in a 32-bit `int`,
`ForEach` with the lambda `x ↦ a * x` capturing `a = 10` replaces each element by
ten times itself; `[0,1,4,9,16,25]` becomes `[0,10,40,90,160,250]`, and that is
what the demo's `intVec` holds after its two transformations. -/
theorem ForEach_scale :
    (∀ (S : List Int), (∀ x ∈ S, fitsInt32 (10 * x)) →
        ForEach S (pureFn (scaleLambda 10)) () = some (S.map (fun x => 10 * x), ()))
      ∧ ForEach [0, 1, 4, 9, 16, 25] (pureFn (scaleLambda 10)) ()
          = some ([0, 10, 40, 90, 160, 250], ())
      ∧ mainIntVecScaled = some ([0, 10, 40, 90, 160, 250], ()) := by
  have hgen : ∀ (S : List Int), (∀ x ∈ S, fitsInt32 (10 * x)) →
      ForEach S (pureFn (scaleLambda 10)) () = some (S.map (fun x => 10 * x), ()) := by
    intro S hS
    rw [ForEach_eq_passOver, passOver_pureFn]
    rw [map_eq_of_agree (scaleLambda 10) (fun x => 10 * x) S
      (fun x hx => wrapInt32_of_fits (10 * x) (hS x hx))]
  have hconc : ForEach [0, 1, 4, 9, 16, 25] (pureFn (scaleLambda 10)) ()
      = some ([0, 10, 40, 90, 160, 250], ()) := by
    rw [hgen [0, 1, 4, 9, 16, 25] (by decide)]
    rfl
  refine ⟨hgen, hconc, ?_⟩
  have hsq : mainIntVecSquared = some ([0, 1, 4, 9, 16, 25], ()) := by
    unfold mainIntVecSquared
    rw [ForEachAuto_eq_passOver, passOver_pureFn]
    rfl
  unfold mainIntVecScaled
  rw [hsq]
  exact hconc

/-- C10 at `S = [214748364, -3]`: both products fit, and the sequence becomes
`[2147483640, -30]`. -/
theorem ForEach_scale_witness :
    (∀ x ∈ ([214748364, -3] : List Int), fitsInt32 (10 * x))
      ∧ ForEach [214748364, -3] (pureFn (scaleLambda 10)) ()
          = some ([2147483640, -30], ()) :=
  ⟨by decide, ForEach_scale.1 [214748364, -3] (by decide)⟩

/-! ## The uppercasing lambda -/

/-- Loop invariant of `upperLoop`: with the iterator standing after the already
converted characters `done`, the loop converts the remaining characters in
order and leaves `done` alone. -/
theorem upperLoop_append (toupperFn : Int → Int) :
    ∀ (rest done s : List Int) (pos : Nat) (hpos : pos ≤ s.length),
      s = done ++ rest → pos = done.length →
      upperLoop toupperFn s pos hpos
        = done ++ rest.map (fun c => narrowChar (toupperFn c)) := by
  intro rest
  induction rest with
  | nil =>
    intro done s pos hpos hs hp
    have hEq : ¬ pos ≠ s.length := by simp [hs, hp]
    rw [upperLoop, dif_neg hEq]
    simp [hs]
  | cons x xs ih =>
    intro done s pos hpos hs hp
    have hne : pos ≠ s.length := by simp [hs, hp]
    have hget : ∀ h : pos < s.length, s.get ⟨pos, h⟩ = x := by
      intro h
      subst hs hp
      rw [List.get_eq_getElem, List.getElem_append_right (Nat.le_refl _)]
      simp
    rw [upperLoop, dif_pos hne]
    refine (ih (done ++ [narrowChar (toupperFn x)]) _ (pos + 1) _ ?_ (by simp [hp])).trans
      (by simp)
    rw [hget]
    subst hs hp
    simp

/-- The lambda of line 58 converts every character of its argument. -/
theorem upperLambda_eq_map (toupperFn : Int → Int) (s : List Int) :
    upperLambda toupperFn s = s.map (fun c => narrowChar (toupperFn c)) := by
  unfold upperLambda
  have h := upperLoop_append toupperFn s [] s 0 (Nat.zero_le _) rfl rfl
  simpa using h

/-- A value that fits in a `char` is not changed by the conversion. -/
theorem narrowChar_of_fits (z : Int) (h : fitsChar z) : narrowChar z = z := by
  unfold fitsChar at h
  unfold narrowChar
  omega

/-! ## `printVec` -/

/-- Loop invariant of `rangeForConst`: the loop finishes and folds the body
over the remaining elements in order. -/
theorem rangeForConst_append {σ : Type u} {T : Type v} (body : T → σ → σ) :
    ∀ (rest done : List T) (w : σ) (endPos pos : Nat) (hpos : pos ≤ endPos),
      pos = done.length → endPos = done.length + rest.length →
      rangeForConst body endPos pos (done ++ rest) w hpos
        = some (rest.foldl (fun acc el => body el acc) w) := by
  intro rest
  induction rest with
  | nil =>
    intro done w endPos pos hpos h1 h2
    have hEq : pos = endPos := by simp at h2; omega
    rw [rangeForConst]
    simp [hEq]
  | cons x xs ih =>
    intro done w endPos pos hpos h1 h2
    have hne : pos ≠ endPos := by simp at h2; omega
    have hget : (done ++ x :: xs).get? pos = some x := by
      subst h1
      rw [List.get?_eq_getElem?, List.getElem?_append_right (Nat.le_refl _)]
      simp
    have hsplit : done ++ x :: xs = (done ++ [x]) ++ xs := by simp
    rw [rangeForConst]
    simp only [hne, ne_eq, not_false_eq_true, dite_true, hget]
    rw [hsplit, ih (done ++ [x]) (body x w) endPos (pos + 1) _ (by simp [h1])
      (by simp [h2]; omega)]
    rfl

/-- Appending a list of texts one after the other to `acc`. -/
theorem foldl_append_eq_join (l : List String) :
    ∀ acc : String, l.foldl (fun r t => r ++ t) acc = acc ++ String.join l := by
  induction l with
  | nil => intro acc; simp [String.join]
  | cons a as ih =>
    intro acc
    have h1 := ih (acc ++ a)
    have h2 := ih ("" ++ a)
    simp only [List.foldl_cons, String.join] at h1 h2 ⊢
    rw [h1, h2, String.empty_append, String.append_assoc]

/-- `printVec` always finishes; it appends every element followed by one
space, and then the newline. -/
theorem printVec_eq_fold {T : Type v} (render : T → String) (v : List T) (out : String) :
    printVec render v out
      = some (out ++ String.join (v.map (fun el => render el ++ " ")) ++ "\n") := by
  unfold printVec
  have h := rangeForConst_append (fun (el : T) (o : String) => o ++ render el ++ " ")
    v [] out v.length 0 (Nat.zero_le _) rfl (by simp)
  simp only [List.nil_append] at h
  rw [h]
  have hfold : ∀ (l : List T) (acc : String),
      l.foldl (fun o el => o ++ render el ++ " ") acc
        = (l.map (fun el => render el ++ " ")).foldl (fun r t => r ++ t) acc := by
    intro l
    induction l with
    | nil => intro acc; rfl
    | cons a as ih =>
      intro acc
      simp only [List.foldl_cons, List.map_cons]
      rw [ih, String.append_assoc]
  simp only [hfold, foldl_append_eq_join]

/-- A list that a map leaves as it is holds only fixed points of the function. -/
theorem fixed_of_map_eq_self {A : Type v} (g : A → A) :
    ∀ (l : List A), l.map g = l → ∀ x ∈ l, g x = x := by
  intro l
  induction l with
  | nil => intro _ x hx; cases hx
  | cons a as ih =>
    intro h x hx
    simp only [List.map_cons, List.cons.injEq] at h
    rcases List.mem_cons.mp hx with hxa | hxas
    · rw [hxa]; exact h.1
    · exact ih h.2 x hxas

/-! ## The demo's string transformation -/

/-- C11: on every sequence of strings `ForEach` with the uppercasing lambda
replaces each string by the string of the same length whose character at
every position is `toupper` of the original character there, converted back
to `char` by the assignment; when `toupper`'s results fit in a `char` it is
`toupper` of the original character itself. `["Pallas","Ceres","Vesta"]`
becomes `["PALLAS","CERES","VESTA"]`. -/
theorem ForEach_upper :
    (∀ (toupperFn : Int → Int) (S : List (List Int)),
        ForEach S (pureFn (upperLambda toupperFn)) ()
          = some (S.map (fun s => s.map (fun c => narrowChar (toupperFn c))), ()))
      ∧ (∀ (toupperFn : Int → Int) (S : List (List Int)),
          (∀ s ∈ S, ∀ c ∈ s, fitsChar (toupperFn c)) →
          ForEach S (pureFn (upperLambda toupperFn)) ()
            = some (S.map (fun s => s.map toupperFn), ()))
      ∧ ForEach [cstr "Pallas", cstr "Ceres", cstr "Vesta"] (pureFn (upperLambda toupper)) ()
          = some ([cstr "PALLAS", cstr "CERES", cstr "VESTA"], ()) := by
  have hgen : ∀ (toupperFn : Int → Int) (S : List (List Int)),
      ForEach S (pureFn (upperLambda toupperFn)) ()
        = some (S.map (fun s => s.map (fun c => narrowChar (toupperFn c))), ()) := by
    intro toupperFn S
    rw [ForEach_eq_passOver, passOver_pureFn]
    rw [map_eq_of_agree (upperLambda toupperFn)
      (fun s => s.map (fun c => narrowChar (toupperFn c))) S
      (fun s _ => upperLambda_eq_map toupperFn s)]
  refine ⟨hgen, ?_, ?_⟩
  · intro toupperFn S hS
    rw [hgen]
    rw [map_eq_of_agree (fun s => s.map (fun c => narrowChar (toupperFn c)))
      (fun s => s.map toupperFn) S
      (fun s hs => map_eq_of_agree (fun c => narrowChar (toupperFn c)) toupperFn s
        (fun c hc => narrowChar_of_fits (toupperFn c) (hS s hs c hc)))]
  · rw [hgen]
    decide

/-- C11 at the modelled `toupper` and `S = ["az", "Hi!"]`: every result of
`toupper` fits in a `char`, and the sequence becomes `["AZ", "HI!"]`. -/
theorem ForEach_upper_witness :
    (∀ s ∈ [cstr "az", cstr "Hi!"], ∀ c ∈ s, fitsChar (toupper c))
      ∧ ForEach [cstr "az", cstr "Hi!"] (pureFn (upperLambda toupper)) ()
          = some ([cstr "AZ", cstr "HI!"], ()) :=
  ⟨by decide, ForEach_upper.2.1 toupper [cstr "az", cstr "Hi!"] (by decide)⟩

/-! ## What `printVec` writes -/

/-- C12 as stated fails: for `[0,1,2,3,4,5]` `printVec` writes
`"0 1 2 3 4 5 \n"`, with a space after the last element, and not the elements
joined by single spaces followed by the newline, `"0 1 2 3 4 5\n"`. -/
theorem printVec_not_joinedLine :
    printVec renderInt [0, 1, 2, 3, 4, 5] "" = some "0 1 2 3 4 5 \n"
      ∧ joinedLine renderInt [0, 1, 2, 3, 4, 5] = "0 1 2 3 4 5\n"
      ∧ printVec renderInt [0, 1, 2, 3, 4, 5] ""
          ≠ some (joinedLine renderInt [0, 1, 2, 3, 4, 5]) := by
  have h : printVec renderInt [0, 1, 2, 3, 4, 5] "" = some "0 1 2 3 4 5 \n" := by
    rw [printVec_eq_fold]
    decide
  refine ⟨h, by decide, ?_⟩
  rw [h]
  decide

/-- C12, amended: for every sequence `v`, `printVec v` finishes and the text it
writes is the rendering of each element of `v` in order, each followed by a
single space (the last one too), followed by exactly one newline; so
`[0,1,2,3,4,5]` is written as `"0 1 2 3 4 5 \n"` and the empty sequence as
`"\n"`. -/
theorem printVec_text {T : Type v} (render : T → String) (v : List T) (out : String) :
    printVec render v out
        = some (out ++ String.join (v.map (fun el => render el ++ " ")) ++ "\n")
      ∧ printVec renderInt [0, 1, 2, 3, 4, 5] "" = some "0 1 2 3 4 5 \n"
      ∧ printVec render [] "" = some "\n" := by
  refine ⟨printVec_eq_fold render v out, ?_, ?_⟩
  · rw [printVec_eq_fold]
    decide
  · rw [printVec_eq_fold]
    rfl

/-! ## `ForEach2` on element types other than `int` -/

/-- C13: for every element type with conversions `toInt` and `ofInt`, every
sequence `S` and every `f : int → int`, `ForEach2 S f` finishes and leaves at
each position `i` the value `ofInt (f (toInt x))` of the original element `x`
there; so when `ofInt (toInt x)` differs from `x` for some element `x` of `S`,
`ForEach2` with the identity does not leave `S` unchanged. -/
theorem ForEach2_conversions {σ : Type u} {T : Type} (toInt : T → Int) (ofInt : Int → T)
    (S : List T) (f : Int → Int) (w : σ) :
    (∃ S1 : List T, ForEach2 toInt ofInt S (pureFn f) w = some (S1, w)
        ∧ S1.length = S.length
        ∧ ∀ i : Nat, S1.get? i = (S.get? i).map (fun x => ofInt (f (toInt x))))
      ∧ ((∃ x ∈ S, ofInt (toInt x) ≠ x) →
          ∃ S2 : List T, ForEach2 toInt ofInt S (pureFn (fun z : Int => z)) w = some (S2, w)
            ∧ S2 ≠ S) := by
  have hrun : ∀ g : Int → Int, ForEach2 toInt ofInt S (pureFn g) w
      = some (S.map (fun x => ofInt (g (toInt x))), w) := by
    intro g
    rw [ForEach2_eq_passOver]
    exact congrArg some (passOver_pureFn (fun x => ofInt (g (toInt x))) S w)
  refine ⟨⟨_, hrun f, by simp, fun i => by simp⟩, ?_⟩
  rintro ⟨x, hx, hne⟩
  refine ⟨_, hrun (fun z => z), ?_⟩
  intro hEq
  exact hne (fixed_of_map_eq_self (fun x => ofInt (toInt x)) S hEq x hx)

/-- C13 at the fractional value 3/2, whose conversion to `int` and back is 1:
`ForEach2` with the identity turns `[3/2]` into something else. -/
theorem ForEach2_conversions_witness :
    (∃ x ∈ [(3 / 2 : ℚ)], fracOfInt (truncToInt x) ≠ x)
      ∧ ∃ S2 : List ℚ,
          ForEach2 truncToInt fracOfInt [(3 / 2 : ℚ)] (pureFn (fun z : Int => z)) ()
              = some (S2, ())
            ∧ S2 ≠ [(3 / 2 : ℚ)] := by
  have hfrac : ∃ x ∈ [(3 / 2 : ℚ)], fracOfInt (truncToInt x) ≠ x := by
    refine ⟨3 / 2, List.mem_singleton.mpr rfl, ?_⟩
    intro h
    have hden : ((3 : ℚ) / 2).den = 2 := by norm_num
    have h1 := congrArg Rat.den h
    rw [hden] at h1
    exact absurd h1 (by decide)
  exact ⟨hfrac, (ForEach2_conversions truncToInt fracOfInt [(3 / 2 : ℚ)]
    (fun z : Int => z) ()).2 hfrac⟩

end CppLambda
